import Mathlib

/-!
Verification of the `hadamard-secret-sharing` crate.

The development shallowly embeds the four source files:

* `hadamard_matrix.rs` — `HadamardMatrix::{is_hadamard, from, normalize, get_incidence}`
* `scheme_impl.rs`     — `Part`, `HSS::{share, reconstruct, validate}`
* `lib.rs`             — `HadamardSSS::{from, get_threshold, reconstruct, …}`

`ndarray::Array2<i32>` is modelled by `Mat`: explicit row/column counts
together with an entry function (entries outside the `rows × cols` domain are
irrelevant junk, never read by in-bounds code).  `u32` values are modelled by
`Nat` (all bit operations used by the crate only ever touch bits `< 32`, so no
wrap-around occurs).  Rust panics (division by zero, out-of-bounds indexing)
are modelled by `Option`: a function returns `none` exactly when the Rust code
would panic.  The thread-local RNG consumed by `share` is modelled by an
oracle `rand : Nat → Nat → Bool` giving the bit drawn for (row `i`, global bit
position `j_id`); each masked position performs exactly one fresh draw, and the
pairs `(i, j_id)` are in bijection with the draw sites of the Rust loop.
-/

namespace HadamardSSSVerify

/-- Model of `ndarray::Array2<i32>`: a rectangular two-dimensional `i32`
array, given by its shape and an entry function. -/
structure Mat where
  rows : Nat
  cols : Nat
  entry : Nat → Nat → Int

/-- Build a `Mat` from a list of rows, as `ndarray::arr2` does. -/
def Mat.ofRows (l : List (List Int)) : Mat :=
  ⟨l.length, (l.headD []).length, fun i j => (l.getD i []).getD j 0⟩

namespace HadamardMatrix

/-- `ndarray`'s `is_square`: both axes of the shape agree. -/
def is_square (m : Mat) : Bool := m.rows == m.cols

/-- Entry `(i, j)` of `mtx.dot(&mtx.t())`, i.e. the inner product of rows `i`
and `j`. -/
def rowDot (m : Mat) (i j : Nat) : Int :=
  (Finset.range m.rows).sum (fun k => m.entry i k * m.entry j k)

/-- `HadamardMatrix::is_hadamard` (hadamard_matrix.rs, lines 42–63): square,
non-empty, all entries in `{-1, 1}`, and `M * Mᵗ = n * I` entrywise. -/
def is_hadamard (m : Mat) : Bool :=
  let n := m.rows
  if !(is_square m) || decide (n < 1) then false
  else if !(decide (∀ i < n, ∀ j < n, m.entry i j = -1 ∨ m.entry i j = 1)) then false
  else decide (∀ i < n, ∀ j < n, rowDot m i j = if i = j then (n : Int) else 0)

/-- `HadamardMatrix::from` (hadamard_matrix.rs, lines 24–30).  (`from` is a
Lean keyword, hence the name `ofMtx`.) -/
def ofMtx (m : Mat) : Except String Mat :=
  if is_hadamard m then Except.ok m else Except.error "something wrong with that matrix"

/-- The inner loop `for j in 0..n { self.mtx[[i, j]] *= -1 }` of `normalize`:
negate row `i` (columns `0..rows`, the loop bound being `n = shape()[0]`). -/
def negRow (m : Mat) (i : Nat) : Mat :=
  ⟨m.rows, m.cols, fun r c => if r = i ∧ c < m.rows then -(m.entry r c) else m.entry r c⟩

/-- The inner loop `for j in 0..n { self.mtx[[j, i]] *= -1 }` of `normalize`:
negate column `i` (rows `0..rows`). -/
def negCol (m : Mat) (j : Nat) : Mat :=
  ⟨m.rows, m.cols, fun r c => if c = j ∧ r < m.rows then -(m.entry r c) else m.entry r c⟩

/-- First half of one `normalize` iteration: flip row `i` if its leading
entry is `-1` (using the current matrix). -/
def normStepRow (m : Mat) (i : Nat) : Mat :=
  if m.entry i 0 = -1 then negRow m i else m

/-- One iteration of `normalize`'s outer loop: the row flip, then the flip of
column `i` if its leading entry is `-1` (tested on the row-flipped matrix). -/
def normStep (m : Mat) (i : Nat) : Mat :=
  if (normStepRow m i).entry 0 i = -1 then negCol (normStepRow m i) i else normStepRow m i

/-- `HadamardMatrix::normalize` (hadamard_matrix.rs, lines 75–90). -/
def normalize (m : Mat) : Mat := (List.range m.rows).foldl normStep m

/-- `normalize` truncated to the first `k` outer-loop iterations (proof
device for reasoning about the loop). -/
def normTo (m : Mat) (k : Nat) : Mat := (List.range k).foldl normStep m

/-- `HadamardMatrix::get_incidence` (hadamard_matrix.rs, lines 94–97): drop
row 0 and column 0 and map each entry `v` to `(v + 1) / 2` (Rust `i32`
division truncates toward zero, which is `Int.tdiv`). -/
def get_incidence (m : Mat) : Mat :=
  ⟨m.rows - 1, m.rows - 1, fun i j => Int.tdiv (m.entry (i + 1) (j + 1) + 1) 2⟩

end HadamardMatrix

/-- `scheme_impl::Part` (scheme_impl.rs, lines 18–23): a party index and a
`u32` payload. -/
structure Part where
  number : Nat
  data : Nat
deriving DecidableEq

/-- `scheme_impl::HSS` (scheme_impl.rs, lines 49–52): the sharing engine,
holding the incidence matrix. -/
structure HSS where
  mtx : Mat

namespace HSS

/-- `size_of::<u32>() * 8`. -/
def secret_size : Nat := 32

/-- Payload of the `i`-th share: the two inner loops of `HSS::share`
(scheme_impl.rs, lines 97–108) accumulating `res[i].data` from `0`. -/
def shareData (mtx : Mat) (times n secret : Nat) (rand : Nat → Nat → Bool) (i : Nat) : Nat :=
  (List.range times).foldl (fun acc s_ind =>
    (List.range n).foldl (fun acc2 j =>
      if j + s_ind * n < secret_size then
        if mtx.entry i j = 1 then acc2 ||| ((1 <<< (j + s_ind * n)) &&& secret)
        else acc2 ||| ((1 <<< (j + s_ind * n)) * (rand i (j + s_ind * n)).toNat)
      else acc2) acc) 0

/-- `HSS::share` (scheme_impl.rs, lines 89–111).  `none` models the Rust
panics: division by zero in `times` when the matrix has `0` rows, and
out-of-bounds indexing `mtx[[i, j]]` when `cols < n`. -/
def share (s : HSS) (secret : Nat) (rand : Nat → Nat → Bool) : Option (List Part) :=
  if s.mtx.rows = 0 then none
  else if s.mtx.cols < s.mtx.rows then none
  else some ((List.range s.mtx.rows).map (fun i =>
    ⟨i, shareData s.mtx ((secret_size + s.mtx.rows - 1) / s.mtx.rows) s.mtx.rows secret rand i⟩))

/-- Contribution of one part to `HSS::reconstruct`'s accumulator: the two
inner loops of scheme_impl.rs, lines 123–132. -/
def reconData (mtx : Mat) (times n : Nat) (p : Part) (res : Nat) : Nat :=
  (List.range times).foldl (fun r s_ind =>
    (List.range n).foldl (fun r2 j =>
      if j + s_ind * n < secret_size then
        if mtx.entry p.number j = 1 then r2 ||| ((1 <<< (j + s_ind * n)) &&& p.data)
        else r2
      else r2) r) res

/-- `HSS::reconstruct` (scheme_impl.rs, lines 116–135).  `none` models the
panics: `times` division by zero when `n = 0`, and out-of-bounds accesses
`mtx[[ind, j]]` (a part number `≥ rows`, or `cols < n` with at least one part
present). -/
def reconstruct (s : HSS) (parts : List Part) : Option Nat :=
  if s.mtx.rows = 0 then none
  else if ¬ (∀ p ∈ parts, p.number < s.mtx.rows) then none
  else if s.mtx.cols < s.mtx.rows ∧ parts ≠ [] then none
  else some (parts.foldl (fun res p =>
    reconData s.mtx ((secret_size + s.mtx.rows - 1) / s.mtx.rows) s.mtx.rows p res) 0)

/-- `cells[j_id][bit].push(ind)`: append `ind` at cell `(j_id, bit)`, where
`bit = false` is `cells[_][0]` (zero voters) and `bit = true` is `cells[_][1]`
(one voters). -/
def pushCell (c : Nat → Bool → List Nat) (p : Nat) (b : Bool) (ind : Nat) :
    Nat → Bool → List Nat :=
  fun q b2 => if q = p ∧ b2 = b then c q b2 ++ [ind] else c q b2

/-- The cell-building triple loop of `HSS::validate` (scheme_impl.rs, lines
153–166), starting from the all-empty `cells` vector. -/
def buildCells (mtx : Mat) (times n : Nat) (parts : List Part) : Nat → Bool → List Nat :=
  parts.foldl (fun c p =>
    (List.range times).foldl (fun c1 s_ind =>
      (List.range n).foldl (fun c2 j =>
        if j + s_ind * n < secret_size ∧ mtx.entry p.number j = 1 then
          pushCell c2 (j + s_ind * n)
            (decide (0 < (1 <<< (j + s_ind * n)) &&& p.data)) p.number
        else c2) c1) c) (fun _ _ => [])

/-- One iteration of the flagging loop of `HSS::validate` (scheme_impl.rs,
lines 169–176): when both `cells[i][0]` and `cells[i][1]` are non-empty, set
`suspicious[ind]` for every `ind` in `cells[i][more]`, where
`more = (cells[i][0].len() > cells[i][1].len()) as usize`. -/
def flagStep (c : Nat → Bool → List Nat) (susp : Nat → Bool) (i : Nat) : Nat → Bool :=
  if c i false ≠ [] ∧ c i true ≠ [] then
    (c i (decide ((c i true).length < (c i false).length))).foldl
      (fun s ind => fun k => if k = ind then true else s k) susp
  else susp

/-- The `suspicious` array (of length `secret_size`) after the flagging loop. -/
def suspiciousArr (c : Nat → Bool → List Nat) : Nat → Bool :=
  (List.range secret_size).foldl (flagStep c) (fun _ => false)

/-- The `cells` vector of `HSS::validate`, fully built (the local variable
`cells` after the triple loop of scheme_impl.rs, lines 152–166). -/
def validateCells (s : HSS) (parts : List Part) : Nat → Bool → List Nat :=
  buildCells s.mtx ((secret_size + s.mtx.rows - 1) / s.mtx.rows) s.mtx.rows parts

/-- `HSS::validate` (scheme_impl.rs, lines 148–185).  `none` models the
panics: `times` division by zero when `n = 0`, out-of-bounds accesses
`mtx[[ind, j]]`, and `suspicious[ind]` with a flagged `ind ≥ secret_size`. -/
def validate (s : HSS) (parts : List Part) : Option (List Nat) :=
  if s.mtx.rows = 0 then none
  else if ¬ (∀ p ∈ parts, p.number < s.mtx.rows) then none
  else if s.mtx.cols < s.mtx.rows ∧ parts ≠ [] then none
  else if ¬ (∀ i < secret_size, validateCells s parts i false ≠ [] →
      validateCells s parts i true ≠ [] →
      ∀ ind ∈ validateCells s parts i
        (decide ((validateCells s parts i true).length < (validateCells s parts i false).length)),
        ind < secret_size) then
    none
  else some ((List.range secret_size).filter (fun i => suspiciousArr (validateCells s parts) i))

end HSS

/-- `lib.rs`'s `HadamardSSS` (lines 24–29): the engine plus the precomputed
threshold. -/
structure HadamardSSS where
  hss : HSS
  threshold : Nat

namespace HadamardSSS

/-- `HadamardSSS::get_threshold` (lib.rs, lines 44–47). -/
def get_threshold (m : Mat) : Nat := (m.rows + 3) / 2

/-- `HadamardSSS::from` (lib.rs, lines 34–41).  The function's return type is
`Result<Self, &'static str>`, but on an invalid candidate it calls
`.expect("Error! ")` on the inner `HadamardMatrix::from` result, which
panics: `none` models that panic.  No `Err` value is ever returned — the
only returned values are `Ok` schemes. -/
def ofMtx (m : Mat) : Option (Except String HadamardSSS) :=
  match HadamardMatrix.ofMtx m with
  | Except.error _ => none
  | Except.ok h =>
    let incidence := HadamardMatrix.get_incidence (HadamardMatrix.normalize h)
    some (Except.ok ⟨⟨incidence⟩, get_threshold incidence⟩)

/-- `HadamardSSS::share` (lib.rs, lines 62–64): delegate to the engine. -/
def share (s : HadamardSSS) (secret : Nat) (rand : Nat → Nat → Bool) : Option (List Part) :=
  s.hss.share secret rand

/-- `HadamardSSS::reconstruct` (lib.rs, lines 67–74): reject sub-threshold
sets, otherwise delegate to the engine (whose panics remain `none`). -/
def reconstruct (s : HadamardSSS) (parts : List Part) : Option (Except String Nat) :=
  if parts.length < s.threshold then some (Except.error "less than threshold parties")
  else (s.hss.reconstruct parts).map Except.ok

/-- `HadamardSSS::validate` (lib.rs, lines 77–79): delegate to the engine. -/
def validate (s : HadamardSSS) (parts : List Part) : Option (List Nat) :=
  s.hss.validate parts

end HadamardSSS

/-- Spec-side statement of "valid Hadamard matrix" (spec.md, §4.1 and the
glossary): square, non-empty, entries in `{-1, +1}`, and `H * Hᵗ = n * I`
entrywise. -/
def IsHadamardSpec (m : Mat) : Prop :=
  m.rows = m.cols ∧ 1 ≤ m.rows ∧
  (∀ i < m.rows, ∀ j < m.rows, m.entry i j = -1 ∨ m.entry i j = 1) ∧
  (∀ i < m.rows, ∀ j < m.rows,
    HadamardMatrix.rowDot m i j = if i = j then (m.rows : Int) else 0)

instance (m : Mat) : Decidable (IsHadamardSpec m) := by
  unfold IsHadamardSpec
  infer_instance

/-- Spec-side voter lists for `validate` (spec.md, §4.5): the party indices
of the supplied shares that assert, through a `1` in their incidence row at
column `q % n`, that bit `q` has value `b` (`b = false`: `zero_voters`,
`b = true`: `one_voters`).  Listed in the order the shares were supplied,
which is the order the implementation pushes into `cells`. -/
def voters (mtx : Mat) (n : Nat) (parts : List Part) (q : Nat) (b : Bool) : List Nat :=
  (parts.filter (fun p => decide (mtx.entry p.number (q % n) = 1) &&
    (decide (0 < (1 <<< q) &&& p.data) == b))).map Part.number

/-- Spec-side flagged side for bit `q` (spec.md, §4.5): the strictly smaller
of the two voter lists, the zero-voter list on ties. -/
def flaggedSide (mtx : Mat) (n : Nat) (parts : List Part) (q : Nat) : List Nat :=
  if (voters mtx n parts q false).length < (voters mtx n parts q true).length then
    voters mtx n parts q false
  else if (voters mtx n parts q true).length < (voters mtx n parts q false).length then
    voters mtx n parts q true
  else
    voters mtx n parts q false

/-- The order-1 Hadamard matrix `[[1]]` (spec boundary case). -/
def exH1 : Mat := Mat.ofRows [[1]]

/-- The order-2 Hadamard matrix from the crate's tests and doc comments. -/
def exH2 : Mat := Mat.ofRows [[1, 1], [1, -1]]

/-- The negated order-2 matrix from the `normalize` doc comment. -/
def exH2n : Mat := Mat.ofRows [[-1, -1], [-1, 1]]

/-- The order-4 Hadamard matrix from the crate's tests. -/
def exH4 : Mat := Mat.ofRows [[1, 1, 1, 1], [1, -1, 1, -1], [1, 1, -1, -1], [1, -1, -1, 1]]

/-- The order-8 Hadamard matrix from the crate's tests. -/
def exH8 : Mat := Mat.ofRows [[1, 1, 1, 1, 1, 1, 1, 1],
                              [1, -1, 1, -1, 1, -1, 1, -1],
                              [1, 1, -1, -1, 1, 1, -1, -1],
                              [1, -1, -1, 1, 1, -1, -1, 1],
                              [1, 1, 1, 1, -1, -1, -1, -1],
                              [1, -1, 1, -1, -1, 1, -1, 1],
                              [1, 1, -1, -1, -1, -1, 1, 1],
                              [1, -1, -1, 1, -1, 1, 1, -1]]

/-- A non-Hadamard square candidate from the crate's tests. -/
def exBad : Mat := Mat.ofRows [[1, 2], [3, 4]]

/-- A non-square candidate (shape 1×2). -/
def exRect : Mat := Mat.ofRows [[1, 1]]

/-- The zero-dimension matrix (shape 0×0). -/
def exZero : Mat := Mat.ofRows []

section FoldLemmas

/-- Bit `q` of an OR-accumulating fold: the seed's bit ORed with the bits of
the individual contributions. -/
lemma testBit_foldl_or {α : Type} (f : α → Nat) (q : Nat) (l : List α) :
    ∀ init : Nat,
      (l.foldl (fun a x => a ||| f x) init).testBit q
        = (init.testBit q || l.any (fun x => (f x).testBit q)) := by
  induction l with
  | nil => intro init; simp
  | cons x l ih => intro init; simp [ih, Bool.or_assoc]

/-- An OR-accumulating fold splits off its seed. -/
lemma foldl_or_init {α : Type} (f : α → Nat) (l : List α) (init : Nat) :
    l.foldl (fun a x => a ||| f x) init = init ||| l.foldl (fun a x => a ||| f x) 0 := by
  apply Nat.eq_of_testBit_eq
  intro q
  simp [testBit_foldl_or, Bool.or_assoc]

/-- Flattening the crate's `for s_ind in 0..times { for j in 0..n { … } }`
double loop into a single loop over the global index `j_id = j + s_ind * n`. -/
lemma foldl_range_mul {β : Type} (g : β → Nat → β) (t n : Nat) :
    ∀ init : β,
      (List.range t).foldl
          (fun a s => (List.range n).foldl (fun b j => g b (j + s * n)) a) init
        = (List.range (t * n)).foldl g init := by
  induction t with
  | zero => intro init; simp
  | succ t ih =>
    intro init
    rw [List.range_succ, List.foldl_append, ih, Nat.succ_mul, List.range_add,
      List.foldl_append, List.foldl_map]
    simp only [List.foldl_cons, List.foldl_nil]
    exact List.foldl_ext _ _ _ (fun a j _ => by rw [Nat.add_comm])

/-- Scanning `List.range T` for the unique index equal to `q`. -/
lemma any_range_eq_decide (T q : Nat) (c : Bool) :
    (List.range T).any (fun x => decide (x = q) && c) = (decide (q < T) && c) := by
  cases c with
  | false => simp
  | true =>
    simp only [Bool.and_true]
    rw [Bool.eq_iff_iff]
    simp only [List.any_eq_true, List.mem_range, decide_eq_true_eq]
    constructor
    · rintro ⟨x, hx, rfl⟩; exact hx
    · intro h; exact ⟨q, h, rfl⟩

/-- Filtering `List.range T` by a predicate that pins the element to `q`. -/
lemma filter_range_eq_single (g : Nat → Bool) (q : Nat) :
    ∀ T, (List.range T).filter (fun x => (x == q) && g x)
      = if q < T ∧ g q = true then [q] else [] := by
  intro T
  induction T with
  | zero => simp
  | succ T ih =>
    rw [List.range_succ, List.filter_append, ih]
    by_cases hq : q < T
    · have hTq : (T == q) = false := by simp; omega
      simp only [List.filter_cons, List.filter_nil, hTq, Bool.false_and]
      by_cases hg : g q = true <;> simp [hg, hq, Nat.lt_succ_of_lt hq]
    · by_cases hq2 : q = T
      · subst hq2
        simp only [beq_self_eq_true, Bool.true_and, List.filter_cons, List.filter_nil]
        by_cases hg : g q = true <;> simp [hg, hq, Nat.lt_succ_self]
      · have hTq : (T == q) = false := by simp; omega
        have h3 : ¬ q < T + 1 := by omega
        simp [hTq, hq, h3]

/-- The block count `times = (32 + n - 1) / n` covers all `32` secret bits. -/
lemma le_times_mul {n : Nat} (hn : 0 < n) : 32 ≤ n * ((32 + n - 1) / n) := by
  have h := Nat.div_add_mod (32 + n - 1) n
  have h2 : (32 + n - 1) % n < n := Nat.mod_lt _ hn
  omega

end FoldLemmas

section ShareLemmas

/-- `shareData` as a single fold over the flattened global bit index. -/
lemma shareData_eq_flat (mtx : Mat) (times n secret : Nat) (rand : Nat → Nat → Bool) (i : Nat) :
    HSS.shareData mtx times n secret rand i
      = (List.range (times * n)).foldl (fun acc x =>
          acc ||| (if x < 32 then
            (if mtx.entry i (x % n) = 1 then (1 <<< x) &&& secret
             else (1 <<< x) * (rand i x).toNat)
          else 0)) 0 := by
  unfold HSS.shareData
  rw [← foldl_range_mul]
  apply List.foldl_ext
  intro a s hs
  apply List.foldl_ext
  intro b j hj
  have hmod : (j + s * n) % n = j := by
    rw [Nat.add_mul_mod_self_right, Nat.mod_eq_of_lt (List.mem_range.mp hj)]
  simp only [HSS.secret_size, hmod]
  by_cases h32 : j + s * n < 32
  · by_cases he : mtx.entry i j = 1 <;> simp [h32, he]
  · simp [h32]

/-- Bit `q` of a share payload, for arbitrary `times`/`n`. -/
lemma shareData_testBit (mtx : Mat) (times n secret : Nat) (rand : Nat → Nat → Bool) (i q : Nat) :
    (HSS.shareData mtx times n secret rand i).testBit q
      = (decide (q < times * n) &&
         (if q < 32 then
            (if mtx.entry i (q % n) = 1 then secret.testBit q else rand i q)
          else false)) := by
  rw [shareData_eq_flat, testBit_foldl_or]
  have hterm : ∀ x : Nat,
      (if x < 32 then
        (if mtx.entry i (x % n) = 1 then (1 <<< x) &&& secret
         else (1 <<< x) * (rand i x).toNat)
      else 0).testBit q
      = (decide (x = q) &&
         (if q < 32 then
            (if mtx.entry i (q % n) = 1 then secret.testBit q else rand i q)
          else false)) := by
    intro x
    by_cases hxq : x = q
    · subst hxq
      by_cases h32 : x < 32
      · by_cases he : mtx.entry i (x % n) = 1
        · simp [h32, he, Nat.shiftLeft_eq, Nat.testBit_two_pow]
        · cases hr : rand i x <;>
            simp [h32, he, hr, Nat.shiftLeft_eq, Nat.testBit_two_pow]
      · simp [h32]
    · by_cases h32 : x < 32
      · by_cases he : mtx.entry i (x % n) = 1
        · simp [h32, he, hxq, Nat.shiftLeft_eq, Nat.testBit_two_pow]
        · cases hr : rand i x <;>
            simp [h32, he, hxq, hr, Nat.shiftLeft_eq, Nat.testBit_two_pow]
      · simp [h32, hxq]
  simp only [hterm]
  rw [any_range_eq_decide]
  simp

/-- Bit `q < 32` of the `i`-th share payload produced by `share`: the secret's
bit where the incidence row has a `1`, the RNG draw for `(i, q)` elsewhere. -/
lemma shareData_testBit_lt (mtx : Mat) (n secret : Nat) (rand : Nat → Nat → Bool) (i q : Nat)
    (hn : 0 < n) (hq : q < 32) :
    (HSS.shareData mtx ((HSS.secret_size + n - 1) / n) n secret rand i).testBit q
      = (if mtx.entry i (q % n) = 1 then secret.testBit q else rand i q) := by
  rw [show HSS.secret_size = 32 from rfl, shareData_testBit, if_pos hq]
  have hlt : q < ((32 + n - 1) / n) * n :=
    lt_of_lt_of_le hq (by rw [Nat.mul_comm]; exact le_times_mul hn)
  rw [decide_eq_true hlt, Bool.true_and]

/-- `reconData` as a single fold over the flattened global bit index. -/
lemma reconData_eq_flat (mtx : Mat) (times n : Nat) (p : Part) (res : Nat) :
    HSS.reconData mtx times n p res
      = (List.range (times * n)).foldl (fun r x =>
          r ||| (if x < 32 ∧ mtx.entry p.number (x % n) = 1
                 then (1 <<< x) &&& p.data else 0)) res := by
  unfold HSS.reconData
  rw [← foldl_range_mul]
  apply List.foldl_ext
  intro a s hs
  apply List.foldl_ext
  intro b j hj
  have hmod : (j + s * n) % n = j := by
    rw [Nat.add_mul_mod_self_right, Nat.mod_eq_of_lt (List.mem_range.mp hj)]
  simp only [HSS.secret_size, hmod]
  by_cases h32 : j + s * n < 32
  · by_cases he : mtx.entry p.number j = 1 <;> simp [h32, he]
  · simp [h32]

/-- Bit `q` of `reconData`. -/
lemma reconData_testBit (mtx : Mat) (times n : Nat) (p : Part) (res q : Nat) :
    (HSS.reconData mtx times n p res).testBit q
      = (res.testBit q ||
         (decide (q < times * n) &&
          (decide (q < 32) && (decide (mtx.entry p.number (q % n) = 1) && p.data.testBit q)))) := by
  rw [reconData_eq_flat, testBit_foldl_or]
  have hterm : ∀ x : Nat,
      (if x < 32 ∧ mtx.entry p.number (x % n) = 1 then (1 <<< x) &&& p.data else 0).testBit q
      = (decide (x = q) &&
         (decide (q < 32) && (decide (mtx.entry p.number (q % n) = 1) && p.data.testBit q))) := by
    intro x
    by_cases hxq : x = q
    · subst hxq
      by_cases hc : x < 32 ∧ mtx.entry p.number (x % n) = 1
      · simp [hc, hc.1, hc.2, Nat.shiftLeft_eq, Nat.testBit_two_pow]
      · rw [if_neg hc]
        rcases Decidable.not_and_iff_or_not.mp hc with h | h <;> simp [h]
    · by_cases hc : x < 32 ∧ mtx.entry p.number (x % n) = 1 <;>
        simp [hc, hxq, Nat.shiftLeft_eq, Nat.testBit_two_pow]
  simp only [hterm]
  rw [any_range_eq_decide]

/-- Bit `q` of the full reconstruction fold over a part list. -/
lemma recon_foldl_testBit (mtx : Mat) (times n : Nat) (q : Nat) (parts : List Part) :
    ∀ res : Nat,
      ((parts.foldl (fun res p => HSS.reconData mtx times n p res) res).testBit q)
      = (res.testBit q ||
         parts.any (fun p =>
           decide (q < times * n) &&
           (decide (q < 32) && (decide (mtx.entry p.number (q % n) = 1) && p.data.testBit q)))) := by
  induction parts with
  | nil => intro res; simp
  | cons p parts ih =>
    intro res
    simp only [List.foldl_cons, ih, reconData_testBit, List.any_cons, Bool.or_assoc]

end ShareLemmas

section ValidateLemmas

/-- Member-wise congruence for `List.any`. -/
lemma any_ext {α : Type} (l : List α) (f g : α → Bool) (h : ∀ x ∈ l, f x = g x) :
    l.any f = l.any g := by
  induction l with
  | nil => rfl
  | cons x l ih =>
    simp only [List.any_cons, h x (List.mem_cons_self x l),
      ih (fun y hy => h y (List.mem_cons_of_mem x hy))]

/-- Value of a single `push`. -/
lemma pushCell_apply (c : Nat → Bool → List Nat) (p : Nat) (b0 : Bool) (ind q : Nat) (b : Bool) :
    HSS.pushCell c p b0 ind q b = if q = p ∧ b = b0 then c q b ++ [ind] else c q b := rfl

/-- Folding conditional pushes (all with the same value `v`, keyed by the
list element itself) appends the matching keys' pushes in order. -/
lemma pushCell_foldl (cond : Nat → Prop) [DecidablePred cond] (bv : Nat → Bool) (v q : Nat)
    (b : Bool) (l : List Nat) :
    ∀ c, (l.foldl (fun c2 x => if cond x then HSS.pushCell c2 x (bv x) v else c2) c) q b
      = c q b ++ ((l.filter (fun x => (x == q) && (decide (cond x) && (bv x == b)))).map
          (fun _ => v)) := by
  induction l with
  | nil => intro c; simp
  | cons x l ih =>
    intro c
    simp only [List.foldl_cons, List.filter_cons]
    by_cases hcond : cond x
    · rw [if_pos hcond, ih, pushCell_apply]
      by_cases hqb : q = x ∧ b = bv x
      · obtain ⟨h1, h2⟩ := hqb
        have hpred : ((x == q) && (decide (cond x) && (bv x == b))) = true := by
          simp [h1, h2, hcond]
        rw [if_pos ⟨h1, h2⟩, hpred, if_pos rfl, List.map_cons, List.append_assoc,
          List.singleton_append]
      · have hpred : ((x == q) && (decide (cond x) && (bv x == b))) = false := by
          rcases not_and_or.mp hqb with h | h
          · have hxq : (x == q) = false := by
              simp only [beq_eq_false_iff_ne, ne_eq]
              exact fun hh => h hh.symm
            simp [hxq]
          · have hbv : (bv x == b) = false := by
              simp only [beq_eq_false_iff_ne, ne_eq]
              exact fun hh => h hh.symm
            simp [hbv]
        rw [if_neg hqb, hpred]
        simp
    · rw [if_neg hcond, ih, decide_eq_false hcond]
      simp

/-- The cell contribution of one part: the inner double loop of `validate`
pushes that part's number at `(q, bit)` exactly when its incidence row has a
`1` at column `q % n` and its payload bit at `q` is `bit`. -/
lemma perPart_cells (mtx : Mat) (times n : Nat) (p : Part) (q : Nat) (b : Bool)
    (hq : q < 32) (hcov : 32 ≤ times * n) :
    ∀ c, ((List.range times).foldl (fun c1 s_ind =>
        (List.range n).foldl (fun c2 j =>
          if j + s_ind * n < HSS.secret_size ∧ mtx.entry p.number j = 1 then
            HSS.pushCell c2 (j + s_ind * n)
              (decide (0 < (1 <<< (j + s_ind * n)) &&& p.data)) p.number
          else c2) c1) c) q b
      = c q b ++ (if mtx.entry p.number (q % n) = 1 ∧
            (decide (0 < (1 <<< q) &&& p.data)) = b
          then [p.number] else []) := by
  intro c
  have hflat : ((List.range times).foldl (fun c1 s_ind =>
        (List.range n).foldl (fun c2 j =>
          if j + s_ind * n < HSS.secret_size ∧ mtx.entry p.number j = 1 then
            HSS.pushCell c2 (j + s_ind * n)
              (decide (0 < (1 <<< (j + s_ind * n)) &&& p.data)) p.number
          else c2) c1) c)
      = ((List.range (times * n)).foldl (fun c2 x =>
          if x < 32 ∧ mtx.entry p.number (x % n) = 1 then
            HSS.pushCell c2 x (decide (0 < (1 <<< x) &&& p.data)) p.number
          else c2) c) := by
    rw [← foldl_range_mul]
    apply List.foldl_ext
    intro a s hs
    apply List.foldl_ext
    intro c2 j hj
    have hmod : (j + s * n) % n = j := by
      rw [Nat.add_mul_mod_self_right, Nat.mod_eq_of_lt (List.mem_range.mp hj)]
    simp only [HSS.secret_size, hmod]
  rw [hflat, pushCell_foldl (fun x => x < 32 ∧ mtx.entry p.number (x % n) = 1)
    (fun x => decide (0 < (1 <<< x) &&& p.data)) p.number q b]
  congr 1
  rw [filter_range_eq_single (fun x =>
    decide (x < 32 ∧ mtx.entry p.number (x % n) = 1) &&
      (decide (0 < (1 <<< x) &&& p.data) == b)) q (times * n)]
  by_cases hcond : mtx.entry p.number (q % n) = 1 ∧ (decide (0 < (1 <<< q) &&& p.data)) = b
  · have hcnd : q < times * n ∧
        ((decide (q < 32 ∧ mtx.entry p.number (q % n) = 1) &&
          (decide (0 < (1 <<< q) &&& p.data) == b)) = true) :=
      ⟨lt_of_lt_of_le hq hcov, by simp [hq, hcond.1, hcond.2]⟩
    rw [if_pos hcnd, if_pos hcond]
    simp
  · have hcnd : ¬ (q < times * n ∧
        ((decide (q < 32 ∧ mtx.entry p.number (q % n) = 1) &&
          (decide (0 < (1 <<< q) &&& p.data) == b)) = true)) := by
      rintro ⟨-, hg⟩
      simp only [Bool.and_eq_true, decide_eq_true_eq, beq_iff_eq] at hg
      exact hcond ⟨hg.1.2, hg.2⟩
    rw [if_neg hcnd, if_neg hcond]
    simp

/-- Membership in a single part's contribution list. -/
lemma cells_cons_split (mtx : Mat) (n : Nat) (p : Part) (parts : List Part) (q : Nat) (b : Bool) :
    voters mtx n (p :: parts) q b
      = (if mtx.entry p.number (q % n) = 1 ∧ (decide (0 < (1 <<< q) &&& p.data)) = b
         then [p.number] else []) ++ voters mtx n parts q b := by
  unfold voters
  rw [List.filter_cons]
  by_cases hcond : mtx.entry p.number (q % n) = 1 ∧ (decide (0 < (1 <<< q) &&& p.data)) = b
  · have hpred : (decide (mtx.entry p.number (q % n) = 1) &&
        (decide (0 < (1 <<< q) &&& p.data) == b)) = true := by
      simp [hcond.1, hcond.2]
    rw [if_pos hcond, hpred, if_pos rfl]
    simp
  · have hpred : (decide (mtx.entry p.number (q % n) = 1) &&
        (decide (0 < (1 <<< q) &&& p.data) == b)) = false := by
      rw [Bool.and_eq_false_iff]
      by_cases h1 : mtx.entry p.number (q % n) = 1
      · right
        simp only [beq_eq_false_iff_ne, ne_eq]
        exact fun h2 => hcond ⟨h1, h2⟩
      · left
        simp [h1]
    rw [if_neg hcond, hpred]
    simp

/-- The fully built `cells` vector holds exactly the spec-side voter lists. -/
lemma buildCells_eq_voters (mtx : Mat) (n : Nat) (parts : List Part) (q : Nat) (b : Bool)
    (hn : 0 < n) (hq : q < 32) :
    HSS.buildCells mtx ((HSS.secret_size + n - 1) / n) n parts q b
      = voters mtx n parts q b := by
  have hcov : 32 ≤ ((HSS.secret_size + n - 1) / n) * n := by
    rw [Nat.mul_comm]
    exact le_times_mul hn
  suffices h : ∀ (ps : List Part) (c : Nat → Bool → List Nat),
      (ps.foldl (fun c p =>
        (List.range ((HSS.secret_size + n - 1) / n)).foldl (fun c1 s_ind =>
          (List.range n).foldl (fun c2 j =>
            if j + s_ind * n < HSS.secret_size ∧ mtx.entry p.number j = 1 then
              HSS.pushCell c2 (j + s_ind * n)
                (decide (0 < (1 <<< (j + s_ind * n)) &&& p.data)) p.number
            else c2) c1) c) c) q b
      = c q b ++ voters mtx n ps q b by
    unfold HSS.buildCells
    rw [h parts (fun _ _ => []), List.nil_append]
  intro ps
  induction ps with
  | nil => intro c; simp [voters]
  | cons p ps ih =>
    intro c
    simp only [List.foldl_cons]
    rw [ih, perPart_cells mtx _ n p q b hq hcov c, cells_cons_split,
      List.append_assoc]

/-- Every voter is the number of one of the supplied parts. -/
lemma voters_mem (mtx : Mat) (n : Nat) (parts : List Part) (q : Nat) (b : Bool) (x : Nat)
    (hx : x ∈ voters mtx n parts q b) : ∃ p ∈ parts, p.number = x := by
  unfold voters at hx
  obtain ⟨p, hp, rfl⟩ := List.mem_map.mp hx
  exact ⟨p, List.mem_of_mem_filter hp, rfl⟩

/-- Folding the scatter loop `suspicious[*ind] = true` over a list of
indices. -/
lemma setTrue_foldl (l : List Nat) (k : Nat) :
    ∀ s : Nat → Bool,
      (l.foldl (fun s2 ind => fun k2 => if k2 = ind then true else s2 k2) s) k
        = (s k || l.any (fun ind => k == ind)) := by
  induction l with
  | nil => intro s; simp
  | cons x l ih =>
    intro s
    simp only [List.foldl_cons, ih, List.any_cons]
    by_cases hk : k = x
    · simp [hk]
    · have hb : (k == x) = false := by simp [hk]
      simp [hk, hb]

/-- Folding the flagging loop: an index ends up suspicious exactly when some
processed bit position has a conflict and the index sits in the flagged
(`cells[i][more]`) list. -/
lemma flag_foldl (c : Nat → Bool → List Nat) (l : List Nat) (k : Nat) :
    ∀ s, (l.foldl (HSS.flagStep c) s) k
      = (s k || l.any (fun i =>
          decide (c i false ≠ [] ∧ c i true ≠ []) &&
          (c i (decide ((c i true).length < (c i false).length))).any (fun ind => k == ind))) := by
  induction l with
  | nil => intro s; simp
  | cons x l ih =>
    intro s
    simp only [List.foldl_cons, ih, List.any_cons]
    unfold HSS.flagStep
    by_cases hc : c x false ≠ [] ∧ c x true ≠ []
    · rw [if_pos hc, setTrue_foldl, decide_eq_true hc]
      simp [Bool.or_assoc]
    · rw [if_neg hc, decide_eq_false hc]
      simp

/-- The implementation's pick `cells[i][(count0 > count1) as usize]` is the
spec's "strictly smaller side, zero-voters on ties". -/
lemma voters_pick_eq_flaggedSide (mtx : Mat) (n : Nat) (parts : List Part) (q : Nat) :
    voters mtx n parts q
        (decide ((voters mtx n parts q true).length < (voters mtx n parts q false).length))
      = flaggedSide mtx n parts q := by
  unfold flaggedSide
  rcases lt_trichotomy (voters mtx n parts q false).length
      (voters mtx n parts q true).length with h | h | h
  · rw [if_pos h, decide_eq_false (by omega)]
  · rw [if_neg (by omega), if_neg (by omega), decide_eq_false (by omega)]
  · rw [if_neg (by omega), if_pos h, decide_eq_true h]

/-- Full characterization of `HSS::validate` on in-bounds inputs: it returns
(no panic) the ascending list of exactly those indices `k < 32` that lie in
some conflicted bit position's flagged voter list. -/
lemma validate_characterization (mtx : Mat) (n : Nat) (parts : List Part)
    (hrows : mtx.rows = n) (hn : 0 < n) (hcols : n ≤ mtx.cols)
    (hnum : ∀ p ∈ parts, p.number < n) (h32 : ∀ p ∈ parts, p.number < 32) :
    HSS.validate ⟨mtx⟩ parts
      = some ((List.range 32).filter (fun k =>
          (List.range 32).any (fun q =>
            decide (voters mtx n parts q false ≠ [] ∧ voters mtx n parts q true ≠ []) &&
            (flaggedSide mtx n parts q).any (fun ind => k == ind)))) := by
  subst hrows
  have hcells : ∀ q < 32, ∀ b,
      HSS.validateCells ⟨mtx⟩ parts q b = voters mtx mtx.rows parts q b := by
    intro q hq b
    exact buildCells_eq_voters mtx mtx.rows parts q b hn hq
  have g1 : ¬ ((⟨mtx⟩ : HSS).mtx.rows = 0) := by
    simp only []
    omega
  have g2 : ¬ ¬ (∀ p ∈ parts, p.number < (⟨mtx⟩ : HSS).mtx.rows) := not_not_intro hnum
  have g3 : ¬ ((⟨mtx⟩ : HSS).mtx.cols < (⟨mtx⟩ : HSS).mtx.rows ∧ parts ≠ []) :=
    fun h => absurd hcols (not_le.mpr h.1)
  have g4 : ¬ ¬ (∀ i < HSS.secret_size, HSS.validateCells ⟨mtx⟩ parts i false ≠ [] →
      HSS.validateCells ⟨mtx⟩ parts i true ≠ [] →
      ∀ ind ∈ HSS.validateCells ⟨mtx⟩ parts i
        (decide ((HSS.validateCells ⟨mtx⟩ parts i true).length <
          (HSS.validateCells ⟨mtx⟩ parts i false).length)),
        ind < HSS.secret_size) := by
    rw [not_not]
    intro i hi hf ht ind hind
    rw [show HSS.secret_size = 32 from rfl] at hi ⊢
    rw [hcells i hi _] at hind
    obtain ⟨p, hp, rfl⟩ := voters_mem _ _ _ _ _ _ hind
    exact h32 p hp
  unfold HSS.validate
  rw [if_neg g1, if_neg g2, if_neg g3, if_neg g4]
  congr 1
  apply List.filter_congr
  intro k hk
  unfold HSS.suspiciousArr HSS.validateCells
  rw [show HSS.secret_size = 32 from rfl, flag_foldl]
  rw [Bool.false_or]
  apply any_ext
  intro q hq
  have hq32 : q < 32 := List.mem_range.mp hq
  have hc : ∀ b, HSS.buildCells mtx ((32 + mtx.rows - 1) / mtx.rows) mtx.rows parts q b
      = voters mtx mtx.rows parts q b := fun b => hcells q hq32 b
  rw [hc false, hc true, hc (decide ((voters mtx mtx.rows parts q true).length <
      (voters mtx mtx.rows parts q false).length)),
    voters_pick_eq_flaggedSide]

end ValidateLemmas

section NormalizeLemmas

open HadamardMatrix

lemma negRow_rows (m : Mat) (i : Nat) : (negRow m i).rows = m.rows := rfl

lemma negCol_rows (m : Mat) (j : Nat) : (negCol m j).rows = m.rows := rfl

lemma negRow_entry_ne (m : Mat) (i r c : Nat) (hr : r ≠ i) :
    (negRow m i).entry r c = m.entry r c := by
  unfold HadamardMatrix.negRow
  simp [hr]

lemma negCol_entry_ne (m : Mat) (j r c : Nat) (hc : c ≠ j) :
    (negCol m j).entry r c = m.entry r c := by
  unfold HadamardMatrix.negCol
  simp [hc]

lemma negRow_entry_eq (m : Mat) (i c : Nat) (hc : c < m.rows) :
    (negRow m i).entry i c = -(m.entry i c) := by
  unfold HadamardMatrix.negRow
  simp [hc]

lemma negCol_entry_eq (m : Mat) (j r : Nat) (hr : r < m.rows) :
    (negCol m j).entry r j = -(m.entry r j) := by
  unfold HadamardMatrix.negCol
  simp [hr]

lemma normStepRow_rows (m : Mat) (i : Nat) : (normStepRow m i).rows = m.rows := by
  unfold HadamardMatrix.normStepRow
  split <;> rfl

lemma normStep_rows (m : Mat) (i : Nat) : (normStep m i).rows = m.rows := by
  unfold HadamardMatrix.normStep
  split
  · rw [negCol_rows, normStepRow_rows]
  · rw [normStepRow_rows]

lemma normTo_succ (m : Mat) (k : Nat) : normTo m (k + 1) = normStep (normTo m k) k := by
  unfold HadamardMatrix.normTo
  rw [List.range_succ, List.foldl_append]
  rfl

lemma normTo_rows (m : Mat) (k : Nat) : (normTo m k).rows = m.rows := by
  induction k with
  | zero => rfl
  | succ k ih => rw [normTo_succ, normStep_rows, ih]

lemma normalize_eq_normTo (m : Mat) : normalize m = normTo m m.rows := rfl

/-- Entries not in row `k` or column `k` are untouched by iteration `k`. -/
lemma normStep_preserved (M : Mat) (k r c : Nat) (hrk : r ≠ k) (hck : c ≠ k) :
    (normStep M k).entry r c = M.entry r c := by
  have e1 : (normStepRow M k).entry r c = M.entry r c := by
    unfold HadamardMatrix.normStepRow
    by_cases h1 : M.entry k 0 = -1
    · rw [if_pos h1, negRow_entry_ne _ _ _ _ hrk]
    · rw [if_neg h1]
  unfold HadamardMatrix.normStep
  by_cases h2 : (normStepRow M k).entry 0 k = -1
  · rw [if_pos h2, negCol_entry_ne _ _ _ _ hck, e1]
  · rw [if_neg h2, e1]

/-- After iteration `k`, the pivot entry `(k, 0)` is `+1`. -/
lemma normStep_entry_k0 (M : Mat) (k : Nat) (h0 : 0 < M.rows)
    (hpm : M.entry k 0 = -1 ∨ M.entry k 0 = 1) :
    (normStep M k).entry k 0 = 1 := by
  have e1 : (normStepRow M k).entry k 0 = 1 := by
    unfold HadamardMatrix.normStepRow
    by_cases h1 : M.entry k 0 = -1
    · rw [if_pos h1, negRow_entry_eq M k 0 h0, h1]
      ring
    · rw [if_neg h1]
      rcases hpm with h | h
      · exact absurd h h1
      · exact h
  unfold HadamardMatrix.normStep
  by_cases h2 : (normStepRow M k).entry 0 k = -1
  · rw [if_pos h2]
    by_cases hk0 : k = 0
    · subst hk0
      rw [e1] at h2
      exact absurd h2 (by norm_num)
    · rw [negCol_entry_ne _ _ _ _ (fun h => hk0 h.symm)]
      exact e1
  · rw [if_neg h2]
    exact e1

/-- After iteration `k`, the pivot entry `(0, k)` is `+1`. -/
lemma normStep_entry_0k (M : Mat) (k : Nat) (hk : k < M.rows) (h0 : 0 < M.rows)
    (hpm : ∀ i < M.rows, ∀ j < M.rows, M.entry i j = -1 ∨ M.entry i j = 1) :
    (normStep M k).entry 0 k = 1 := by
  by_cases hk0 : k = 0
  · subst hk0
    exact normStep_entry_k0 M 0 h0 (hpm 0 h0 0 h0)
  have e1 : (normStepRow M k).entry 0 k = M.entry 0 k := by
    unfold HadamardMatrix.normStepRow
    by_cases h1 : M.entry k 0 = -1
    · rw [if_pos h1, negRow_entry_ne M k 0 k (fun h => hk0 h.symm)]
    · rw [if_neg h1]
  unfold HadamardMatrix.normStep
  by_cases h2 : (normStepRow M k).entry 0 k = -1
  · rw [if_pos h2, negCol_entry_eq _ k 0 (by rw [normStepRow_rows]; exact h0), h2]
    ring
  · rw [if_neg h2, e1]
    rw [e1] at h2
    rcases hpm 0 h0 k hk with h | h
    · exact absurd h h2
    · exact h

/-- The row half of one iteration is a sign multiple on each row. -/
lemma normStepRow_entry_signs (M : Mat) (i : Nat) :
    ∃ er : Int, (er = 1 ∨ er = -1) ∧ ∀ r c, c < M.rows →
      (normStepRow M i).entry r c = (if r = i then er else 1) * M.entry r c := by
  unfold HadamardMatrix.normStepRow
  by_cases h1 : M.entry i 0 = -1
  · refine ⟨-1, Or.inr rfl, fun r c hc => ?_⟩
    rw [if_pos h1]
    by_cases hr : r = i
    · subst hr
      rw [negRow_entry_eq M r c hc, if_pos rfl]
      ring
    · rw [negRow_entry_ne M i r c hr, if_neg hr]
      ring
  · refine ⟨1, Or.inl rfl, fun r c hc => ?_⟩
    rw [if_neg h1]
    by_cases hr : r = i <;> simp [hr]

/-- One full iteration multiplies row `i` and column `i` by fixed signs. -/
lemma normStep_entry_signs (M : Mat) (i : Nat) :
    ∃ er ec : Int, (er = 1 ∨ er = -1) ∧ (ec = 1 ∨ ec = -1) ∧
      ∀ r c, r < M.rows → c < M.rows →
        (normStep M i).entry r c
          = (if r = i then er else 1) * ((if c = i then ec else 1) * M.entry r c) := by
  obtain ⟨er, her, hrow⟩ := normStepRow_entry_signs M i
  unfold HadamardMatrix.normStep
  by_cases h2 : (normStepRow M i).entry 0 i = -1
  · refine ⟨er, -1, her, Or.inr rfl, fun r c hr hc => ?_⟩
    rw [if_pos h2]
    by_cases hcE : c = i
    · subst hcE
      rw [negCol_entry_eq _ c r (by rw [normStepRow_rows]; exact hr), hrow r c hc,
        if_pos rfl]
      ring
    · rw [negCol_entry_ne _ _ _ _ hcE, hrow r c hc, if_neg hcE]
      ring
  · refine ⟨er, 1, her, Or.inl rfl, fun r c hr hc => ?_⟩
    rw [if_neg h2, hrow r c hc]
    by_cases hcE : c = i <;> simp [hcE]

/-- The truncated normalization is an entrywise sign pattern
`ε(row) * δ(column)` applied to the original matrix. -/
lemma normTo_signs (m : Mat) (k : Nat) :
    ∃ ε δ : Nat → Int, (∀ x, ε x = 1 ∨ ε x = -1) ∧ (∀ x, δ x = 1 ∨ δ x = -1) ∧
      ∀ r c, r < m.rows → c < m.rows →
        (normTo m k).entry r c = ε r * δ c * m.entry r c := by
  induction k with
  | zero =>
    exact ⟨fun _ => 1, fun _ => 1, fun _ => Or.inl rfl, fun _ => Or.inl rfl,
      fun r c _ _ => by simp [HadamardMatrix.normTo]⟩
  | succ k ih =>
    obtain ⟨ε, δ, hε, hδ, h⟩ := ih
    obtain ⟨er, ec, her, hec, hstep⟩ := normStep_entry_signs (normTo m k) k
    refine ⟨fun x => (if x = k then er else 1) * ε x,
      fun x => (if x = k then ec else 1) * δ x, ?_, ?_, ?_⟩
    · intro x
      show (if x = k then er else 1) * ε x = 1 ∨ (if x = k then er else 1) * ε x = -1
      by_cases hx : x = k
      · rw [if_pos hx]
        rcases her with h1 | h1 <;> rcases hε x with h2 | h2 <;> rw [h1, h2] <;> norm_num
      · rw [if_neg hx, one_mul]
        exact hε x
    · intro x
      show (if x = k then ec else 1) * δ x = 1 ∨ (if x = k then ec else 1) * δ x = -1
      by_cases hx : x = k
      · rw [if_pos hx]
        rcases hec with h1 | h1 <;> rcases hδ x with h2 | h2 <;> rw [h1, h2] <;> norm_num
      · rw [if_neg hx, one_mul]
        exact hδ x
    · intro r c hr hc
      rw [normTo_succ,
        hstep r c (by rw [normTo_rows]; exact hr) (by rw [normTo_rows]; exact hc),
        h r c hr hc]
      ring

/-- Normalization keeps all entries in `{-1, +1}`. -/
lemma normTo_entries_pm (m : Mat) (k : Nat)
    (hpm : ∀ i < m.rows, ∀ j < m.rows, m.entry i j = -1 ∨ m.entry i j = 1) :
    ∀ i < m.rows, ∀ j < m.rows,
      (normTo m k).entry i j = -1 ∨ (normTo m k).entry i j = 1 := by
  obtain ⟨ε, δ, hε, hδ, h⟩ := normTo_signs m k
  intro i hi j hj
  rw [h i j hi hj]
  rcases hε i with h1 | h1 <;> rcases hδ j with h2 | h2 <;>
    rcases hpm i hi j hj with h3 | h3 <;> rw [h1, h2, h3] <;> norm_num

/-- Normalization preserves the orthogonality relation `H * Hᵗ = n * I`. -/
lemma normTo_orth (m : Mat) (k : Nat)
    (horth : ∀ i < m.rows, ∀ j < m.rows,
      rowDot m i j = if i = j then (m.rows : Int) else 0) :
    ∀ i < m.rows, ∀ j < m.rows,
      rowDot (normTo m k) i j = if i = j then (m.rows : Int) else 0 := by
  obtain ⟨ε, δ, hε, hδ, h⟩ := normTo_signs m k
  intro i hi j hj
  unfold HadamardMatrix.rowDot
  rw [normTo_rows]
  have hterm : ∀ c ∈ Finset.range m.rows,
      (normTo m k).entry i c * (normTo m k).entry j c
        = (ε i * ε j) * (m.entry i c * m.entry j c) := by
    intro c hc
    have hc' : c < m.rows := Finset.mem_range.mp hc
    rw [h i c hi hc', h j c hj hc']
    have hδ2 : δ c * δ c = 1 := by
      rcases hδ c with h' | h' <;> rw [h'] <;> ring
    calc (ε i * δ c * m.entry i c) * (ε j * δ c * m.entry j c)
        = (ε i * ε j) * (m.entry i c * m.entry j c) * (δ c * δ c) := by ring
      _ = (ε i * ε j) * (m.entry i c * m.entry j c) := by rw [hδ2, mul_one]
  rw [Finset.sum_congr rfl hterm, ← Finset.mul_sum]
  have hd := horth i hi j hj
  unfold HadamardMatrix.rowDot at hd
  rw [hd]
  by_cases hij : i = j
  · have hε2 : ε i * ε j = 1 := by
      subst hij
      rcases hε i with h' | h' <;> rw [h'] <;> ring
    rw [hε2, one_mul]
  · rw [if_neg hij, mul_zero]

/-- After the full normalization loop, row 0 and column 0 are all `+1`. -/
lemma normTo_first_ones (m : Mat)
    (hpm : ∀ i < m.rows, ∀ j < m.rows, m.entry i j = -1 ∨ m.entry i j = 1) :
    ∀ k, k ≤ m.rows → ∀ i < k,
      (normTo m k).entry i 0 = 1 ∧ (normTo m k).entry 0 i = 1 := by
  intro k
  induction k with
  | zero => intro _ i hi; omega
  | succ k ih =>
    intro hk1 i hi
    rw [normTo_succ]
    have hrowsM : (normTo m k).rows = m.rows := normTo_rows m k
    have hpmM : ∀ a < (normTo m k).rows, ∀ b < (normTo m k).rows,
        (normTo m k).entry a b = -1 ∨ (normTo m k).entry a b = 1 := by
      rw [hrowsM]
      exact normTo_entries_pm m k hpm
    have h0 : 0 < (normTo m k).rows := by omega
    by_cases hik : i = k
    · subst hik
      refine ⟨normStep_entry_k0 _ i h0 (hpmM i (by omega) 0 h0), ?_⟩
      exact normStep_entry_0k _ i (by omega) h0 hpmM
    · have hi' : i < k := by omega
      obtain ⟨ha, hb⟩ := ih (by omega) i hi'
      have hk0 : k ≠ 0 := by omega
      refine ⟨?_, ?_⟩
      · rw [normStep_preserved _ k i 0 hik (fun h => hk0 h.symm)]
        exact ha
      · rw [normStep_preserved _ k 0 i (fun h => hk0 h.symm) hik]
        exact hb

end NormalizeLemmas

section HadamardAlgebra

open HadamardMatrix

/-- The implementation's `is_hadamard` decides exactly the spec-side
predicate. -/
lemma is_hadamard_iff (m : Mat) : is_hadamard m = true ↔ IsHadamardSpec m := by
  unfold HadamardMatrix.is_hadamard HadamardMatrix.is_square
  constructor
  · intro h
    by_cases h1 : m.rows = m.cols
    · by_cases h2 : m.rows < 1
      · rw [if_pos (by simp [h2])] at h
        exact absurd h (by simp)
      · by_cases h3 : ∀ i < m.rows, ∀ j < m.rows, m.entry i j = -1 ∨ m.entry i j = 1
        · rw [if_neg (by simp [h1]; omega), if_neg (by rw [decide_eq_true h3]; simp)] at h
          exact ⟨h1, by omega, h3, by simpa using h⟩
        · rw [if_neg (by simp [h1]; omega), if_pos (by rw [decide_eq_false h3]; simp)] at h
          exact absurd h (by simp)
    · rw [if_pos (by simp [h1])] at h
      exact absurd h (by simp)
  · rintro ⟨h1, h2, h3, h4⟩
    rw [if_neg (by simp [h1]; omega), if_neg (by rw [decide_eq_true h3]; simp)]
    simpa using h4

/-- Row orthogonality transfers to column orthogonality (`H * Hᵗ = n * I`
implies `Hᵗ * H = n * I`, via invertibility over `ℚ`). -/
lemma col_orth (m : Mat) (h1 : 1 ≤ m.rows)
    (horth : ∀ i < m.rows, ∀ j < m.rows,
      rowDot m i j = if i = j then (m.rows : Int) else 0) :
    ∀ j < m.rows, ∀ j2 < m.rows,
      (Finset.range m.rows).sum (fun k => m.entry k j * m.entry k j2)
        = if j = j2 then (m.rows : Int) else 0 := by
  classical
  intro j hj j2 hj2
  have hn0 : ((m.rows : Int) : ℚ) ≠ 0 := by
    have : 0 < m.rows := h1
    simp
    omega
  set A : Matrix (Fin m.rows) (Fin m.rows) ℚ :=
    Matrix.of (fun i k : Fin m.rows => ((m.entry i k : Int) : ℚ)) with hA
  have hcast : ∀ a b : Nat,
      (Finset.univ : Finset (Fin m.rows)).sum (fun x : Fin m.rows =>
        ((m.entry a x : Int) : ℚ) * ((m.entry b x : Int) : ℚ))
      = (((Finset.range m.rows).sum (fun x => m.entry a x * m.entry b x) : Int) : ℚ) := by
    intro a b
    rw [Fin.sum_univ_eq_sum_range
      (fun x => ((m.entry a x : Int) : ℚ) * ((m.entry b x : Int) : ℚ)) m.rows]
    push_cast
    rfl
  have hAAt : A * A.transpose = ((m.rows : Int) : ℚ) • (1 : Matrix (Fin m.rows) (Fin m.rows) ℚ) := by
    ext i k
    rw [Matrix.mul_apply, Matrix.smul_apply, Matrix.one_apply]
    simp only [hA, Matrix.transpose_apply, Matrix.of_apply]
    rw [hcast i k]
    have hd := horth i i.isLt k k.isLt
    unfold HadamardMatrix.rowDot at hd
    rw [hd]
    by_cases hik : (i : Nat) = (k : Nat)
    · have hik2 : i = k := Fin.ext hik
      simp [hik, hik2]
    · have hik2 : ¬ (i = k) := fun h => hik (congrArg Fin.val h)
      simp [hik, hik2]
  have hAtA : A.transpose * A = ((m.rows : Int) : ℚ) • 1 := by
    have h2 : A * (((m.rows : Int) : ℚ)⁻¹ • A.transpose) = 1 := by
      rw [Matrix.mul_smul, hAAt, smul_smul, inv_mul_cancel₀ hn0, one_smul]
    have h3 : (((m.rows : Int) : ℚ)⁻¹ • A.transpose) * A = 1 := Matrix.mul_eq_one_comm.mp h2
    have h4 : ((m.rows : Int) : ℚ) • ((((m.rows : Int) : ℚ)⁻¹ • A.transpose) * A)
        = ((m.rows : Int) : ℚ) • (1 : Matrix (Fin m.rows) (Fin m.rows) ℚ) := by
      rw [h3]
    rwa [Matrix.smul_mul, smul_smul, mul_inv_cancel₀ hn0, one_smul] at h4
  have hcast2 : ∀ a b : Nat,
      (Finset.univ : Finset (Fin m.rows)).sum (fun x : Fin m.rows =>
        ((m.entry x a : Int) : ℚ) * ((m.entry x b : Int) : ℚ))
      = (((Finset.range m.rows).sum (fun x => m.entry x a * m.entry x b) : Int) : ℚ) := by
    intro a b
    rw [Fin.sum_univ_eq_sum_range
      (fun x => ((m.entry x a : Int) : ℚ) * ((m.entry x b : Int) : ℚ)) m.rows]
    push_cast
    rfl
  have hentry := congrArg (fun M : Matrix (Fin m.rows) (Fin m.rows) ℚ =>
    M ⟨j, hj⟩ ⟨j2, hj2⟩) hAtA
  simp only [Matrix.mul_apply, Matrix.smul_apply, Matrix.one_apply, hA,
    Matrix.transpose_apply, Matrix.of_apply] at hentry
  rw [hcast2 j j2, smul_eq_mul] at hentry
  by_cases hjj : j = j2
  · subst hjj
    rw [if_pos rfl]
    rw [if_pos rfl, mul_one] at hentry
    exact_mod_cast hentry
  · rw [if_neg hjj]
    rw [if_neg (by simp [Fin.mk.injEq, hjj]), mul_zero] at hentry
    exact_mod_cast hentry

/-- A `±1`-valued sum counts `+1`s minus `-1`s, and the two counts partition
the index set. -/
lemma count_pm (s : Finset Nat) (f : Nat → Int) (hpm : ∀ i ∈ s, f i = -1 ∨ f i = 1) :
    s.sum f = ((s.filter (fun i => f i = 1)).card : Int)
        - ((s.filter (fun i => f i = -1)).card : Int)
      ∧ (s.filter (fun i => f i = 1)).card + (s.filter (fun i => f i = -1)).card = s.card := by
  classical
  have hsplit := Finset.sum_filter_add_sum_filter_not s (fun i => f i = 1) f
  have hpos : (s.filter (fun i => f i = 1)).sum f
      = ((s.filter (fun i => f i = 1)).card : Int) := by
    rw [Finset.sum_congr rfl (fun i hi => (Finset.mem_filter.mp hi).2)]
    simp
  have hfneg : s.filter (fun i => ¬ (f i = 1)) = s.filter (fun i => f i = -1) := by
    apply Finset.filter_congr
    intro i hi
    rcases hpm i hi with h | h <;> simp [h]
  have hneg : (s.filter (fun i => ¬ (f i = 1))).sum f
      = -((s.filter (fun i => f i = -1)).card : Int) := by
    rw [hfneg, Finset.sum_congr rfl (fun i hi => (Finset.mem_filter.mp hi).2)]
    simp
  constructor
  · rw [← hsplit, hpos, hneg]
    ring
  · rw [← hfneg, Finset.filter_card_add_filter_neg_card_eq_card]

end HadamardAlgebra

section SchemeGlue

open HadamardMatrix

lemma normalize_rows (m : Mat) : (normalize m).rows = m.rows := by
  rw [normalize_eq_normTo]
  exact normTo_rows m m.rows

/-- Construction succeeds on a Hadamard matrix and stores the incidence
matrix together with its threshold. -/
lemma ofMtx_ok (m : Mat) (h : is_hadamard m = true) :
    HadamardSSS.ofMtx m
      = some (Except.ok ⟨⟨get_incidence (normalize m)⟩,
          HadamardSSS.get_threshold (get_incidence (normalize m))⟩) := by
  unfold HadamardSSS.ofMtx HadamardMatrix.ofMtx
  rw [if_pos h]

/-- Properties of the normalized matrix of a valid Hadamard matrix. -/
lemma normalize_props (m : Mat) (hspec : IsHadamardSpec m) :
    (normalize m).rows = m.rows ∧
    (∀ i < m.rows, ∀ j < m.rows, (normalize m).entry i j = -1 ∨ (normalize m).entry i j = 1) ∧
    (∀ i < m.rows, ∀ j < m.rows,
      rowDot (normalize m) i j = if i = j then (m.rows : Int) else 0) ∧
    (∀ i < m.rows, (normalize m).entry i 0 = 1 ∧ (normalize m).entry 0 i = 1) := by
  obtain ⟨hsq, h1, hpm, horth⟩ := hspec
  refine ⟨normalize_rows m, ?_, ?_, ?_⟩
  · rw [normalize_eq_normTo]
    exact normTo_entries_pm m m.rows hpm
  · rw [normalize_eq_normTo]
    exact normTo_orth m m.rows horth
  · rw [normalize_eq_normTo]
    intro i hi
    exact normTo_first_ones m hpm m.rows le_rfl i hi

lemma incidence_rows (m : Mat) : (get_incidence (normalize m)).rows = m.rows - 1 := by
  rw [show (get_incidence (normalize m)).rows = (normalize m).rows - 1 from rfl,
    normalize_rows]

lemma incidence_cols (m : Mat) : (get_incidence (normalize m)).cols = m.rows - 1 := by
  rw [show (get_incidence (normalize m)).cols = (normalize m).rows - 1 from rfl,
    normalize_rows]

/-- Incidence entries are the `0/1` image of the normalized `±1` entries. -/
lemma incidence_entry (m : Mat) (i j : Nat)
    (hpm : (normalize m).entry (i + 1) (j + 1) = -1 ∨ (normalize m).entry (i + 1) (j + 1) = 1) :
    (get_incidence (normalize m)).entry i j
      = if (normalize m).entry (i + 1) (j + 1) = 1 then 1 else 0 := by
  show Int.tdiv ((normalize m).entry (i + 1) (j + 1) + 1) 2 = _
  rcases hpm with h | h <;> rw [h] <;> decide

/-- Each incidence column's zero entries number exactly half the Hadamard
order: the column of the normalized matrix sums to zero, so `-1`s and `+1`s
are equinumerous there. -/
lemma incidence_col_zeros (m : Mat) (hspec : IsHadamardSpec m) (j : Nat) (hj : j < m.rows - 1) :
    2 * ((Finset.range (m.rows - 1)).filter
        (fun i => ¬ ((get_incidence (normalize m)).entry i j = 1))).card = m.rows := by
  classical
  obtain ⟨hrows, hpmN, horthN, hones⟩ := normalize_props m hspec
  obtain ⟨hsq, h1, hpm0, horth0⟩ := hspec
  have horthN' : ∀ a < (normalize m).rows, ∀ b < (normalize m).rows,
      rowDot (normalize m) a b = if a = b then ((normalize m).rows : Int) else 0 := by
    rw [hrows]
    exact horthN
  have hcol := col_orth (normalize m) (by rw [hrows]; omega) horthN'
  have hj1 : j + 1 < m.rows := by omega
  have hsum0 : (Finset.range m.rows).sum
      (fun k => (normalize m).entry k (j + 1) * (normalize m).entry k 0) = 0 := by
    have := hcol (j + 1) (by rw [hrows]; omega) 0 (by rw [hrows]; omega)
    rw [if_neg (by omega), hrows] at this
    exact this
  have hsum1 : (Finset.range m.rows).sum (fun k => (normalize m).entry k (j + 1)) = 0 := by
    rw [← hsum0]
    apply Finset.sum_congr rfl
    intro k hk
    rw [(hones k (Finset.mem_range.mp hk)).1, mul_one]
  have hcount := count_pm (Finset.range m.rows) (fun k => (normalize m).entry k (j + 1))
    (fun k hk => hpmN k (Finset.mem_range.mp hk) (j + 1) hj1)
  obtain ⟨hc1, hc2⟩ := hcount
  rw [hsum1] at hc1
  rw [Finset.card_range] at hc2
  beta_reduce at hc1 hc2
  have hceq : ((Finset.range m.rows).filter (fun k => (normalize m).entry k (j + 1) = 1)).card
      = ((Finset.range m.rows).filter (fun k => (normalize m).entry k (j + 1) = -1)).card := by
    omega
  have hcnat : 2 * ((Finset.range m.rows).filter
      (fun k => (normalize m).entry k (j + 1) = -1)).card = m.rows := by
    omega
  have hTS : ((Finset.range (m.rows - 1)).filter
        (fun i => ¬ ((get_incidence (normalize m)).entry i j = 1))).card
      = ((Finset.range m.rows).filter
        (fun k => (normalize m).entry k (j + 1) = -1)).card := by
    refine Finset.card_nbij' (fun a => a + 1) (fun b => b - 1) ?_ ?_ ?_ ?_
    · intro a ha
      beta_reduce
      rw [Finset.mem_filter, Finset.mem_range] at ha ⊢
      obtain ⟨har, hane⟩ := ha
      have hpmE := hpmN (a + 1) (by omega) (j + 1) hj1
      constructor
      · omega
      · rcases hpmE with h | h
        · exact h
        · exfalso
          apply hane
          rw [incidence_entry m a j (Or.inr h), if_pos h]
    · intro b hb
      beta_reduce
      rw [Finset.mem_filter, Finset.mem_range] at hb ⊢
      obtain ⟨hbr, hbe⟩ := hb
      have hb0 : b ≠ 0 := by
        intro h0
        rw [h0, (hones (j + 1) hj1).2] at hbe
        exact absurd hbe (by norm_num)
      have hb1 : b - 1 + 1 = b := by omega
      constructor
      · omega
      · intro hinc
        have hpmE := hpmN b hbr (j + 1) hj1
        rw [show (get_incidence (normalize m)).entry (b - 1) j
            = if (normalize m).entry (b - 1 + 1) (j + 1) = 1 then 1 else 0 from
            incidence_entry m (b - 1) j (by rw [hb1]; exact hpmE)] at hinc
        rw [hb1, hbe] at hinc
        simp at hinc
    · intro a _
      beta_reduce
      omega
    · intro b hb
      beta_reduce
      rw [Finset.mem_filter] at hb
      have hb0 : b ≠ 0 := by
        intro h0
        rw [h0, (hones (j + 1) hj1).2] at hb
        exact absurd hb.2 (by norm_num)
      omega
  rw [hTS]
  exact hcnat

/-- Coverage: a threshold-sized duplicate-free subset of rows always contains
a row with a `1` in any given incidence column. -/
lemma subset_coverage (m : Mat) (hspec : IsHadamardSpec m) (sub : List Part)
    (hnum : ∀ p ∈ sub, p.number < m.rows - 1)
    (hnd : (sub.map Part.number).Nodup)
    (hlen : (m.rows - 1 + 3) / 2 ≤ sub.length)
    (j : Nat) (hj : j < m.rows - 1) :
    ∃ p ∈ sub, (get_incidence (normalize m)).entry p.number j = 1 := by
  classical
  by_contra hcon
  push_neg at hcon
  have hsubset : (sub.map Part.number).toFinset ⊆
      (Finset.range (m.rows - 1)).filter
        (fun i => ¬ ((get_incidence (normalize m)).entry i j = 1)) := by
    intro x hx
    rw [List.mem_toFinset, List.mem_map] at hx
    obtain ⟨p, hp, rfl⟩ := hx
    rw [Finset.mem_filter, Finset.mem_range]
    exact ⟨hnum p hp, hcon p hp⟩
  have hcard := Finset.card_le_card hsubset
  rw [List.toFinset_card_of_nodup hnd, List.length_map] at hcard
  have hzeros := incidence_col_zeros m hspec j hj
  omega

/-- `HSS::share` on a non-degenerate matrix: the panic guards pass. -/
lemma share_eq (mtxI : Mat) (secret : Nat) (rand : Nat → Nat → Bool)
    (hn : 0 < mtxI.rows) (hc : mtxI.rows ≤ mtxI.cols) :
    HSS.share ⟨mtxI⟩ secret rand
      = some ((List.range mtxI.rows).map (fun i =>
          ⟨i, HSS.shareData mtxI ((HSS.secret_size + mtxI.rows - 1) / mtxI.rows)
            mtxI.rows secret rand i⟩)) := by
  unfold HSS.share
  rw [if_neg (show ¬ (mtxI.rows = 0) by omega),
    if_neg (show ¬ (mtxI.cols < mtxI.rows) by omega)]

/-- `HSS::reconstruct` on in-bounds parts: the panic guards pass. -/
lemma reconstruct_eq (mtxI : Mat) (parts : List Part) (hn : 0 < mtxI.rows)
    (hc : mtxI.rows ≤ mtxI.cols) (hnum : ∀ p ∈ parts, p.number < mtxI.rows) :
    HSS.reconstruct ⟨mtxI⟩ parts
      = some (parts.foldl (fun res p =>
          HSS.reconData mtxI ((HSS.secret_size + mtxI.rows - 1) / mtxI.rows)
            mtxI.rows p res) 0) := by
  unfold HSS.reconstruct
  rw [if_neg (show ¬ (mtxI.rows = 0) by omega),
    if_neg (show ¬ ¬ (∀ p ∈ parts, p.number < mtxI.rows) from not_not_intro hnum),
    if_neg (show ¬ (mtxI.cols < mtxI.rows ∧ parts ≠ []) from
      fun hh => absurd hc (not_le.mpr hh.1))]

lemma getD_range_map {β : Type} (f : Nat → β) (n i : Nat) (d : β) (hi : i < n) :
    ((List.range n).map f).getD i d = f i := by
  rw [List.getD_eq_getElem?_getD, List.getElem?_map, List.getElem?_range hi]
  rfl

/-- Whatever side `validate` flags, every flagged index names a supplied
part. -/
lemma flaggedSide_mem_parts (mtx : Mat) (n : Nat) (parts : List Part) (q x : Nat)
    (hx : x ∈ flaggedSide mtx n parts q) : ∃ p ∈ parts, p.number = x := by
  unfold flaggedSide at hx
  split at hx
  · exact voters_mem _ _ _ _ _ _ hx
  · split at hx
    · exact voters_mem _ _ _ _ _ _ hx
    · exact voters_mem _ _ _ _ _ _ hx

/-- When both voter lists are non-empty, the flagged side is non-empty. -/
lemma flaggedSide_ne_nil (mtx : Mat) (n : Nat) (parts : List Part) (q : Nat)
    (hf : voters mtx n parts q false ≠ []) (ht : voters mtx n parts q true ≠ []) :
    flaggedSide mtx n parts q ≠ [] := by
  unfold flaggedSide
  split
  · exact hf
  · split
    · exact ht
    · exact hf

end SchemeGlue

section ClaimTheorems

open HadamardMatrix

/-- C7: `is_hadamard` returns `true` exactly for square matrices of order at
least 1 with all entries in `{-1, +1}` satisfying `M * Mᵗ = n * I` entrywise;
in particular it is `false` for every non-square matrix and for the
zero-dimension matrix, and `true` for `[[1]]` and `[[1, 1], [1, -1]]`. -/
theorem claim_c7 :
    (∀ m : Mat, is_hadamard m = true ↔ IsHadamardSpec m) ∧
    (∀ m : Mat, m.rows ≠ m.cols → is_hadamard m = false) ∧
    (∀ m : Mat, m.rows = 0 → is_hadamard m = false) ∧
    is_hadamard exH1 = true ∧ is_hadamard exH2 = true := by
  refine ⟨is_hadamard_iff, ?_, ?_, by decide, by decide⟩
  · intro m hm
    rw [Bool.eq_false_iff]
    intro h
    exact hm ((is_hadamard_iff m).mp h).1
  · intro m hm
    rw [Bool.eq_false_iff]
    intro h
    have := ((is_hadamard_iff m).mp h).2.1
    omega

theorem claim_c7_witness :
    is_hadamard exRect = false ∧ is_hadamard exZero = false ∧
    (is_hadamard exBad = true ↔ IsHadamardSpec exBad) :=
  ⟨claim_c7.2.1 exRect (by decide), claim_c7.2.2.1 exZero (by decide),
    claim_c7.1 exBad⟩

/-- C8: the scheme's threshold is `(d + 3) / 2` of the incidence dimension
`d`; for the order-8 test matrix (incidence dimension 7) the constructed
scheme's threshold is 5. -/
theorem claim_c8 :
    (∀ m : Mat, HadamardSSS.get_threshold m = (m.rows + 3) / 2) ∧
    (∀ m : Mat, m.rows = 7 → HadamardSSS.get_threshold m = 5) ∧
    HadamardSSS.ofMtx exH8
      = some (Except.ok ⟨⟨get_incidence (normalize exH8)⟩, 5⟩) := by
  refine ⟨fun m => rfl, ?_, ?_⟩
  · intro m hm
    unfold HadamardSSS.get_threshold
    omega
  · have h5 : HadamardSSS.get_threshold (get_incidence (normalize exH8)) = 5 := by decide
    rw [ofMtx_ok exH8 (by decide), h5]

theorem claim_c8_witness :
    HadamardSSS.get_threshold (get_incidence (normalize exH8)) = 5 :=
  claim_c8.2.1 (get_incidence (normalize exH8)) (by decide)

/-- C2 (code bug): the claim asks that construction from an invalid
candidate fail with an error condition *returned to the caller*.  The inner
`HadamardMatrix::from` does return that error, but `HadamardSSS::from`
unwraps it with `.expect("Error! ")` and panics, never returning `Err`
despite its `Result` signature.  Proved here on the test candidate
`[[1, 2], [3, 4]]`: the inner constructor returns the error, the top-level
constructor panics (no value, no partial scheme), no input ever makes the
top-level constructor return an error value, and every valid Hadamard matrix
constructs successfully. -/
theorem claim_c2 :
    HadamardMatrix.ofMtx exBad = Except.error "something wrong with that matrix" ∧
    HadamardSSS.ofMtx exBad = none ∧
    (∀ m : Mat, ∀ e : String, HadamardSSS.ofMtx m ≠ some (Except.error e)) ∧
    (∀ m : Mat, IsHadamardSpec m → ∃ s : HadamardSSS,
      HadamardSSS.ofMtx m = some (Except.ok s)) := by
  have h1 : HadamardMatrix.ofMtx exBad = Except.error "something wrong with that matrix" := by
    unfold HadamardMatrix.ofMtx
    rw [if_neg (by decide)]
  refine ⟨h1, ?_, ?_, ?_⟩
  · unfold HadamardSSS.ofMtx
    rw [h1]
  · intro m e
    unfold HadamardSSS.ofMtx
    cases h2 : HadamardMatrix.ofMtx m with
    | error e2 => simp
    | ok hmat => simp
  · intro m h
    exact ⟨_, ofMtx_ok m ((is_hadamard_iff m).mpr h)⟩

theorem claim_c2_witness :
    HadamardSSS.ofMtx exBad = none ∧
    (∃ s, HadamardSSS.ofMtx exH2 = some (Except.ok s)) :=
  ⟨claim_c2.2.1, claim_c2.2.2.2 exH2 (by decide)⟩

/-- C3: the top-level `reconstruct` returns the below-threshold error exactly
when fewer shares than the threshold are supplied; otherwise it returns
whatever the engine accumulates (never an error; an engine panic stays a
panic). -/
theorem claim_c3 (s : HadamardSSS) (parts : List Part) :
    ((∃ e, HadamardSSS.reconstruct s parts = some (Except.error e))
        ↔ parts.length < s.threshold) ∧
    (s.threshold ≤ parts.length →
      HadamardSSS.reconstruct s parts = (HSS.reconstruct s.hss parts).map Except.ok) := by
  constructor
  · constructor
    · rintro ⟨e, he⟩
      by_contra hlen
      unfold HadamardSSS.reconstruct at he
      rw [if_neg hlen] at he
      cases h : HSS.reconstruct s.hss parts with
      | none => rw [h] at he; simp at he
      | some v => rw [h] at he; simp at he
    · intro hlen
      refine ⟨"less than threshold parties", ?_⟩
      unfold HadamardSSS.reconstruct
      rw [if_pos hlen]
  · intro hlen
    unfold HadamardSSS.reconstruct
    rw [if_neg (by omega)]

theorem claim_c3_witness :
    HadamardSSS.reconstruct ⟨⟨exH1⟩, 1⟩ [] = some (Except.error "less than threshold parties") ∧
    HadamardSSS.reconstruct ⟨⟨exH1⟩, 0⟩ []
      = (HSS.reconstruct (⟨⟨exH1⟩, 0⟩ : HadamardSSS).hss []).map Except.ok := by
  constructor
  · obtain ⟨e, he⟩ := (claim_c3 ⟨⟨exH1⟩, 1⟩ []).1.mpr (by decide)
    have : e = "less than threshold parties" := by
      unfold HadamardSSS.reconstruct at he
      rw [if_pos (by decide)] at he
      simpa using he.symm
    rw [← this]
    exact he
  · exact (claim_c3 ⟨⟨exH1⟩, 0⟩ []).2 (by decide)

/-- C4: on an `n × n` incidence matrix with `n ≥ 1`, `share` succeeds and
returns exactly `n` shares, the `i`-th tagged with party index `i`; for every
bit position `j_id < 32`, the share's bit is the secret's bit when row `i`
has a `1` in column `j_id % n`, and the fresh RNG draw for `(i, j_id)`
otherwise. -/
theorem claim_c4 (mtxI : Mat) (n secret : Nat) (rand : Nat → Nat → Bool)
    (hrows : mtxI.rows = n) (hcols : mtxI.cols = n) (hn : 1 ≤ n) :
    ∃ sh, HSS.share ⟨mtxI⟩ secret rand = some sh ∧ sh.length = n ∧
      (∀ i < n, (sh.getD i ⟨0, 0⟩).number = i) ∧
      (∀ i < n, ∀ q < 32,
        ((sh.getD i ⟨0, 0⟩).data).testBit q
          = if mtxI.entry i (q % n) = 1 then secret.testBit q else rand i q) := by
  subst hrows
  refine ⟨_, share_eq mtxI secret rand (by omega) (by omega), by simp, ?_, ?_⟩
  · intro i hi
    rw [getD_range_map _ _ _ _ hi]
  · intro i hi q hq
    rw [getD_range_map _ _ _ _ hi]
    exact shareData_testBit_lt mtxI mtxI.rows secret rand i q (by omega) hq

theorem claim_c4_witness :
    ∃ sh, HSS.share ⟨exH1⟩ 3 (fun _ _ => true) = some sh ∧ sh.length = 1 ∧
      (∀ i < 1, (sh.getD i ⟨0, 0⟩).number = i) ∧
      (∀ i < 1, ∀ q < 32,
        ((sh.getD i ⟨0, 0⟩).data).testBit q
          = if exH1.entry i (q % 1) = 1 then (3 : Nat).testBit q
            else (fun _ _ => true : Nat → Nat → Bool) i q) :=
  claim_c4 exH1 1 3 (fun _ _ => true) (by decide) (by decide) (by decide)

/-- C10: on an `n × n` incidence matrix with `n ≥ 1` and parts whose numbers
are below both `n` and `32`, the engine's `share`, `reconstruct` and
`validate` all return a value (no division by zero, no out-of-bounds
access). -/
theorem claim_c10 (mtxI : Mat) (n secret : Nat) (rand : Nat → Nat → Bool)
    (parts : List Part)
    (hrows : mtxI.rows = n) (hcols : mtxI.cols = n) (hn : 1 ≤ n)
    (hbound : ∀ p ∈ parts, p.number < n ∧ p.number < 32) :
    (∃ sh, HSS.share ⟨mtxI⟩ secret rand = some sh) ∧
    (∃ v, HSS.reconstruct ⟨mtxI⟩ parts = some v) ∧
    (∃ L, HSS.validate ⟨mtxI⟩ parts = some L) := by
  subst hrows
  exact ⟨⟨_, share_eq mtxI secret rand (by omega) (by omega)⟩,
    ⟨_, reconstruct_eq mtxI parts (by omega) (by omega) (fun p hp => (hbound p hp).1)⟩,
    ⟨_, validate_characterization mtxI mtxI.rows parts rfl (by omega) (by omega)
      (fun p hp => (hbound p hp).1) (fun p hp => (hbound p hp).2)⟩⟩

theorem claim_c10_witness :
    (∃ sh, HSS.share ⟨exH1⟩ 7 (fun _ _ => false) = some sh) ∧
    (∃ v, HSS.reconstruct ⟨exH1⟩ [⟨0, 7⟩] = some v) ∧
    (∃ L, HSS.validate ⟨exH1⟩ [⟨0, 7⟩] = some L) :=
  claim_c10 exH1 1 7 (fun _ _ => false) [⟨0, 7⟩] (by decide) (by decide) (by decide)
    (by decide)

/-- C9: whenever `validate` is called with in-bounds party numbers, every
returned index is the party number of some supplied share, and the returned
list is strictly increasing (hence duplicate-free). -/
theorem claim_c9 (mtxI : Mat) (n : Nat) (parts : List Part)
    (hrows : mtxI.rows = n) (hcols : mtxI.cols = n) (hn : 1 ≤ n)
    (hbound : ∀ p ∈ parts, p.number < n ∧ p.number < 32) :
    ∃ L, HSS.validate ⟨mtxI⟩ parts = some L ∧
      (∀ k ∈ L, ∃ p ∈ parts, p.number = k) ∧
      List.Sorted (· < ·) L ∧ L.Nodup := by
  subst hrows
  refine ⟨_, validate_characterization mtxI mtxI.rows parts rfl (by omega) (by omega)
    (fun p hp => (hbound p hp).1) (fun p hp => (hbound p hp).2), ?_, ?_, ?_⟩
  · intro k hk
    rw [List.mem_filter] at hk
    obtain ⟨-, hany⟩ := hk
    rw [List.any_eq_true] at hany
    obtain ⟨q, hq, hpred⟩ := hany
    rw [Bool.and_eq_true] at hpred
    obtain ⟨-, hmem⟩ := hpred
    rw [List.any_eq_true] at hmem
    obtain ⟨ind, hind, hkind⟩ := hmem
    have hk2 : k = ind := by simpa using hkind
    subst hk2
    exact flaggedSide_mem_parts mtxI mtxI.rows parts q k hind
  · exact (List.pairwise_lt_range 32).filter _
  · exact (List.nodup_range 32).filter _

theorem claim_c9_witness :
    ∃ L, HSS.validate ⟨exH1⟩ [⟨0, 0⟩, ⟨0, 1⟩] = some L ∧
      (∀ k ∈ L, ∃ p ∈ [(⟨0, 0⟩ : Part), ⟨0, 1⟩], p.number = k) ∧
      List.Sorted (· < ·) L ∧ L.Nodup :=
  claim_c9 exH1 1 [⟨0, 0⟩, ⟨0, 1⟩] (by decide) (by decide) (by decide) (by decide)

/-- C5: `validate` returns exactly the indices that lie, for some bit
position `q < 32` with both voter sets non-empty, in the strictly smaller
voter set (the zero-voter set on ties — `flaggedSide`); the result is empty
exactly when no bit position has both voter sets non-empty. -/
theorem claim_c5 (mtxI : Mat) (n : Nat) (parts : List Part)
    (hrows : mtxI.rows = n) (hcols : mtxI.cols = n) (hn : 1 ≤ n)
    (hbound : ∀ p ∈ parts, p.number < n ∧ p.number < 32) :
    ∃ L, HSS.validate ⟨mtxI⟩ parts = some L ∧
      (∀ k, k ∈ L ↔ ∃ q < 32, voters mtxI n parts q false ≠ [] ∧
          voters mtxI n parts q true ≠ [] ∧ k ∈ flaggedSide mtxI n parts q) ∧
      (L = [] ↔ ∀ q < 32,
          voters mtxI n parts q false = [] ∨ voters mtxI n parts q true = []) := by
  subst hrows
  have hmem : ∀ k, (k ∈ (List.range 32).filter (fun k =>
        (List.range 32).any (fun q =>
          decide (voters mtxI mtxI.rows parts q false ≠ [] ∧
            voters mtxI mtxI.rows parts q true ≠ []) &&
          (flaggedSide mtxI mtxI.rows parts q).any (fun ind => k == ind))))
      ↔ ∃ q < 32, voters mtxI mtxI.rows parts q false ≠ [] ∧
          voters mtxI mtxI.rows parts q true ≠ [] ∧ k ∈ flaggedSide mtxI mtxI.rows parts q := by
    intro k
    rw [List.mem_filter, List.mem_range]
    constructor
    · rintro ⟨-, hany⟩
      rw [List.any_eq_true] at hany
      obtain ⟨q, hq, hpred⟩ := hany
      rw [List.mem_range] at hq
      rw [Bool.and_eq_true, decide_eq_true_eq] at hpred
      obtain ⟨⟨hf, ht⟩, hmem2⟩ := hpred
      rw [List.any_eq_true] at hmem2
      obtain ⟨ind, hind, hkind⟩ := hmem2
      have hk2 : k = ind := by simpa using hkind
      subst hk2
      exact ⟨q, hq, hf, ht, hind⟩
    · rintro ⟨q, hq, hf, ht, hk⟩
      obtain ⟨p, hp, rfl⟩ := flaggedSide_mem_parts mtxI mtxI.rows parts q _ hk
      refine ⟨(hbound p hp).2, ?_⟩
      rw [List.any_eq_true]
      refine ⟨q, List.mem_range.mpr hq, ?_⟩
      rw [Bool.and_eq_true, decide_eq_true_eq]
      refine ⟨⟨hf, ht⟩, ?_⟩
      rw [List.any_eq_true]
      exact ⟨p.number, hk, by simp⟩
  refine ⟨_, validate_characterization mtxI mtxI.rows parts rfl (by omega) (by omega)
    (fun p hp => (hbound p hp).1) (fun p hp => (hbound p hp).2), hmem, ?_⟩
  constructor
  · intro hnil q hq
    by_contra hcon
    push_neg at hcon
    obtain ⟨hf, ht⟩ := hcon
    have hne := flaggedSide_ne_nil mtxI mtxI.rows parts q hf ht
    obtain ⟨k, hk⟩ := List.exists_mem_of_ne_nil _ hne
    have : k ∈ ([] : List Nat) := by
      rw [← hnil, hmem k]
      exact ⟨q, hq, hf, ht, hk⟩
    simp at this
  · intro hno
    rw [List.eq_nil_iff_forall_not_mem]
    intro k
    rw [hmem k]
    rintro ⟨q, hq, hf, ht, -⟩
    rcases hno q hq with h | h
    · exact hf h
    · exact ht h

theorem claim_c5_witness :
    ∃ L, HSS.validate ⟨exH1⟩ [⟨0, 0⟩, ⟨0, 1⟩] = some L ∧
      (∀ k, k ∈ L ↔ ∃ q < 32, voters exH1 1 [⟨0, 0⟩, ⟨0, 1⟩] q false ≠ [] ∧
          voters exH1 1 [⟨0, 0⟩, ⟨0, 1⟩] q true ≠ [] ∧
          k ∈ flaggedSide exH1 1 [⟨0, 0⟩, ⟨0, 1⟩] q) ∧
      (L = [] ↔ ∀ q < 32, voters exH1 1 [⟨0, 0⟩, ⟨0, 1⟩] q false = [] ∨
          voters exH1 1 [⟨0, 0⟩, ⟨0, 1⟩] q true = []) :=
  claim_c5 exH1 1 [⟨0, 0⟩, ⟨0, 1⟩] (by decide) (by decide) (by decide) (by decide)

/-- C6: for every square `±1` matrix, after `normalize` row 0 and column 0
are all `+1`; and if the matrix satisfied `H * Hᵗ = n * I`, the normalized
matrix still does. -/
theorem claim_c6 (m : Mat) (_hsq : m.rows = m.cols)
    (hpm : ∀ i < m.rows, ∀ j < m.rows, m.entry i j = -1 ∨ m.entry i j = 1) :
    (∀ i < m.rows, (normalize m).entry i 0 = 1 ∧ (normalize m).entry 0 i = 1) ∧
    ((∀ i < m.rows, ∀ j < m.rows, rowDot m i j = if i = j then (m.rows : Int) else 0) →
      ∀ i < m.rows, ∀ j < m.rows,
        rowDot (normalize m) i j = if i = j then (m.rows : Int) else 0) := by
  constructor
  · rw [normalize_eq_normTo]
    intro i hi
    exact normTo_first_ones m hpm m.rows le_rfl i hi
  · intro horth
    rw [normalize_eq_normTo]
    exact normTo_orth m m.rows horth

theorem claim_c6_witness :
    (∀ i < exH2n.rows, (normalize exH2n).entry i 0 = 1 ∧ (normalize exH2n).entry 0 i = 1) ∧
    ((∀ i < exH2n.rows, ∀ j < exH2n.rows,
        rowDot exH2n i j = if i = j then (exH2n.rows : Int) else 0) →
      ∀ i < exH2n.rows, ∀ j < exH2n.rows,
        rowDot (normalize exH2n) i j = if i = j then (exH2n.rows : Int) else 0) :=
  claim_c6 exH2n (by decide) (by decide)

/-- C1: for every valid Hadamard matrix, every 32-bit secret, and every
choice of the masking bits, the scheme built by construction reconstructs the
secret exactly from any duplicate-free subset of the produced shares of at
least threshold size. -/
theorem claim_c1 (M : Mat) (secret : Nat) (rand : Nat → Nat → Bool) (sh sub : List Part)
    (hM : is_hadamard M = true)
    (hsec : secret < 2 ^ 32)
    (hsh : HSS.share ⟨get_incidence (normalize M)⟩ secret rand = some sh)
    (hsub : ∀ p ∈ sub, p ∈ sh)
    (hnd : (sub.map Part.number).Nodup)
    (hlen : HadamardSSS.get_threshold (get_incidence (normalize M)) ≤ sub.length) :
    HadamardSSS.ofMtx M
      = some (Except.ok ⟨⟨get_incidence (normalize M)⟩,
          HadamardSSS.get_threshold (get_incidence (normalize M))⟩) ∧
    HadamardSSS.reconstruct
        ⟨⟨get_incidence (normalize M)⟩,
          HadamardSSS.get_threshold (get_incidence (normalize M))⟩ sub
      = some (Except.ok secret) := by
  have hspec := (is_hadamard_iff M).mp hM
  set I := get_incidence (normalize M) with hI
  have hrowsI : I.rows = M.rows - 1 := incidence_rows M
  have hcolsI : I.cols = M.rows - 1 := incidence_cols M
  have hd : 0 < I.rows := by
    by_contra h0
    unfold HSS.share at hsh
    rw [if_pos (show I.rows = 0 by omega)] at hsh
    exact Option.noConfusion hsh
  have hshEq : sh = (List.range I.rows).map (fun i =>
      ⟨i, HSS.shareData I ((HSS.secret_size + I.rows - 1) / I.rows) I.rows secret rand i⟩) := by
    have he := share_eq I secret rand hd (by omega)
    rw [he] at hsh
    exact (Option.some.inj hsh).symm
  have hmemSh : ∀ p ∈ sub, p.number < I.rows ∧
      p.data = HSS.shareData I ((HSS.secret_size + I.rows - 1) / I.rows)
        I.rows secret rand p.number := by
    intro p hp
    have hin := hsub p hp
    rw [hshEq, List.mem_map] at hin
    obtain ⟨i, hi, hpi⟩ := hin
    rw [List.mem_range] at hi
    cases hpi
    exact ⟨hi, rfl⟩
  refine ⟨ofMtx_ok M hM, ?_⟩
  unfold HadamardSSS.reconstruct
  rw [if_neg (show ¬ (sub.length < HadamardSSS.get_threshold I) by omega)]
  rw [show ((⟨⟨I⟩, HadamardSSS.get_threshold I⟩ : HadamardSSS).hss) = ⟨I⟩ from rfl,
    reconstruct_eq I sub hd (by omega) (fun p hp => (hmemSh p hp).1)]
  have hR : (sub.foldl (fun res p =>
      HSS.reconData I ((HSS.secret_size + I.rows - 1) / I.rows) I.rows p res) 0) = secret := by
    apply Nat.eq_of_testBit_eq
    intro q
    rw [recon_foldl_testBit, Nat.zero_testBit, Bool.false_or]
    by_cases hq : q < 32
    · have hqT : q < ((HSS.secret_size + I.rows - 1) / I.rows) * I.rows := by
        have h32 := le_times_mul hd
        have h32' : 32 ≤ ((32 + I.rows - 1) / I.rows) * I.rows := by
          rw [Nat.mul_comm]
          exact h32
        exact lt_of_lt_of_le hq h32'
      have hsimp : ∀ p ∈ sub,
          (decide (q < ((HSS.secret_size + I.rows - 1) / I.rows) * I.rows) &&
            (decide (q < 32) &&
              (decide (I.entry p.number (q % I.rows) = 1) && p.data.testBit q)))
          = (decide (I.entry p.number (q % I.rows) = 1) && secret.testBit q) := by
        intro p hp
        rw [decide_eq_true hqT, decide_eq_true hq, Bool.true_and, Bool.true_and]
        obtain ⟨hpn, hpd⟩ := hmemSh p hp
        by_cases he : I.entry p.number (q % I.rows) = 1
        · rw [hpd, shareData_testBit_lt I I.rows secret rand p.number q hd hq, if_pos he]
        · rw [decide_eq_false he, Bool.false_and, Bool.false_and]
      rw [any_ext sub _ _ hsimp]
      cases hsb : secret.testBit q with
      | false =>
        rw [List.any_eq_false]
        intro p _
        simp
      | true =>
        rw [List.any_eq_true]
        have hcov := subset_coverage M hspec sub
          (fun p hp => by have := (hmemSh p hp).1; omega) hnd
          (by
            have ht : HadamardSSS.get_threshold I = (I.rows + 3) / 2 := rfl
            omega)
          (q % I.rows) (by have := Nat.mod_lt q hd; omega)
        obtain ⟨p0, hp0, hcov0⟩ := hcov
        exact ⟨p0, hp0, by rw [decide_eq_true hcov0, Bool.true_and]⟩
    · have h1 : secret.testBit q = false := by
        apply Nat.testBit_lt_two_pow
        calc secret < 2 ^ 32 := hsec
          _ ≤ 2 ^ q := Nat.pow_le_pow_right (by norm_num) (by omega)
      rw [h1, List.any_eq_false]
      intro p _
      simp [hq]
  rw [hR]
  rfl

theorem claim_c1_witness :
    HadamardSSS.ofMtx exH4
      = some (Except.ok ⟨⟨get_incidence (normalize exH4)⟩,
          HadamardSSS.get_threshold (get_incidence (normalize exH4))⟩) ∧
    HadamardSSS.reconstruct
        ⟨⟨get_incidence (normalize exH4)⟩,
          HadamardSSS.get_threshold (get_incidence (normalize exH4))⟩
        [⟨2, 4⟩, ⟨0, 0⟩, ⟨1, 1⟩]
      = some (Except.ok 5) :=
  claim_c1 exH4 5 (fun _ _ => false)
    [⟨0, 0⟩, ⟨1, 1⟩, ⟨2, 4⟩] [⟨2, 4⟩, ⟨0, 0⟩, ⟨1, 1⟩]
    (by decide) (by decide) (by decide) (by decide) (by decide) (by decide)

end ClaimTheorems

end HadamardSSSVerify
